import Mathlib

/-!
Shallow embedding of `google-alerts-summarizer/main.py` (the history
reconciliation and rendering pipeline) together with theorems settling the
specification claims.

Python `dict` records holding string fields are modelled as a fixed-shape
structure with `Option String` fields: `none` models an absent key,
`some ""` a present-but-empty value, matching Python's `dict.get`
semantics.  Entries of the loaded history that are not dictionaries are
modelled by the constructor `HistEntry.nonDict`.  External collaborators
(`fetch_text`, `summarize_text`) are opaque total string functions passed
as parameters, matching the spec's narrow-contract treatment.
-/

/-- An article record (`main.py` lines 298-306 shows the full field set). -/
structure Record where
  id : Option String
  title : Option String
  link : Option String
  source : Option String
  pub_date : Option String
  summary : Option String
  added_on : Option String
deriving DecidableEq

/-- One entry of a loaded history list: either a dictionary (record) or some
other JSON value (`isinstance(a, dict)` fails, `main.py` line 314). -/
inductive HistEntry where
  | dict (r : Record)
  | nonDict
deriving DecidableEq

/-- The key/value pair a history entry contributes to the dedup dictionary:
`if isinstance(a, dict) and a.get("id"): dedup[a["id"]] = a`
(`main.py` lines 313-315).  `none` when the entry is skipped. -/
def entryKV : HistEntry → Option (String × Record)
  | .dict r =>
      match r.id with
      | some s => if s = "" then none else some (s, r)
      | none => none
  | .nonDict => none

/-- Insertion-ordered dictionary update: `dedup[k] = r` on a Python dict
replaces the value at an existing key in place (keeping the key's original
position) and otherwise appends the new binding at the end. -/
def updateAssoc : List (String × Record) → String → Record → List (String × Record)
  | [], k, r => [(k, r)]
  | p :: m, k, r => if p.1 = k then (p.1, r) :: m else p :: updateAssoc m k r

/-- One iteration of the dedup loop (`main.py` lines 313-315). -/
def dedupStep (m : List (String × Record)) (e : HistEntry) : List (String × Record) :=
  match entryKV e with
  | some (k, r) => updateAssoc m k r
  | none => m

/-- The dedup dictionary built from the whole history list
(`main.py` lines 312-315). -/
def dedupAssoc (l : List HistEntry) : List (String × Record) :=
  l.foldl dedupStep []

/-- `hist = list(dedup.values())` (`main.py` line 316). -/
def mergeDedup (l : List HistEntry) : List Record :=
  (dedupAssoc l).map Prod.snd

/-- The sort key `(a.get("pub_date",""), a.get("added_on",""))`
(`main.py` line 318). -/
def keyOf (r : Record) : String × String :=
  (r.pub_date.getD "", r.added_on.getD "")

/-- Strict lexicographic comparison of strings by character, as Python
compares strings (kernel-computable, unlike the iterator-based instance). -/
def strLtB (s t : String) : Bool := decide (s.data < t.data)

/-- Non-strict string comparison: strictly less or equal. -/
def strLeB (s t : String) : Bool := strLtB s t || decide (s = t)

/-- Non-strict string comparison with the arguments flipped, for
`sorted(..., reverse=True)`. -/
def strGeB (s t : String) : Bool := strLeB t s

/-- Lexicographic `≤` on string pairs, as Python compares key tuples. -/
def pairLeB (x y : String × String) : Bool :=
  strLtB x.1 y.1 || (decide (x.1 = y.1) && strLeB x.2 y.2)

/-- Propositional form of `pairLeB`. -/
def pairLeP (x y : String × String) : Prop :=
  x.1 < y.1 ∨ (x.1 = y.1 ∧ x.2 ≤ y.2)

/-- `a` may be placed no later than `b` in the descending sort
(`hist.sort(key=..., reverse=True)`, `main.py` line 318): the key of `b`
is lexicographically `≤` the key of `a`. -/
def recLE (a b : Record) : Bool :=
  pairLeB (keyOf b) (keyOf a)

/-- Stable insertion of `a` into `l`: `a` is placed before the first
element it may precede (non-strict comparison, so an element inserted
later never jumps over an equal one). -/
def insortBy (le : α → α → Bool) (a : α) : List α → List α
  | [] => [a]
  | b :: l => if le a b then a :: b :: l else b :: insortBy le a l

/-- Stable insertion sort; Python's `list.sort` is a stable sort, and a
stable sort's output is uniquely determined by the comparison, so this
models `hist.sort(key=..., reverse=True)` exactly. -/
def isortBy (le : α → α → Bool) : List α → List α
  | [] => []
  | a :: l => insortBy le a (isortBy le (l))

/-- `merge_and_sort`: the dedup-then-sort block of `main.py`
lines 311-318 applied to the concatenated history. -/
def mergeAndSort (l : List HistEntry) : List Record :=
  isortBy recLE (mergeDedup l)

/-- The last value with key `s` among the pairs `ps`, starting from
`init` (a fold that mirrors repeated dictionary assignment). -/
def lastUpd (ps : List (String × Record)) (s : String) (init : Option Record) : Option Record :=
  ps.foldl (fun acc p => if p.1 = s then some p.2 else acc) init

/-- The record of the last-appended entry with id `s` in `l` (among the
entries the dedup loop accepts). -/
def lastWith (l : List HistEntry) (s : String) : Option Record :=
  lastUpd (l.filterMap entryKV) s none

/-- First-match association lookup (Python `dict` access on a dictionary
whose keys are unique). -/
def lookupA (m : List (String × Record)) (k : String) : Option Record :=
  (m.find? (fun p => decide (p.1 = k))).map Prod.snd

/-- The entry body of `render_markdown`'s loop (`main.py` lines 205-212). -/
def renderEntry (r : Record) : String :=
  let title := r.title.getD "(Sans titre)"
  let link := r.link.getD ""
  let source := r.source.getD ""
  let pub := r.pub_date.getD ""
  let metaParts :=
    (if source ≠ "" then ["Source : " ++ source] else []) ++
    (if pub ≠ "" then ["Publication : " ++ pub] else [])
  let meta := String.intercalate " | " metaParts
  let metaLine := if meta ≠ "" then "*" ++ meta ++ "*" else ""
  "## [" ++ title ++ "](" ++ link ++ ")  \n" ++ metaLine ++ "\n\n" ++
    r.summary.getD "" ++ "\n"

/-- `render_markdown(day_iso, articles)` (`main.py` lines 200-213). -/
def renderMarkdown (day_iso : String) (articles : List Record) : String :=
  let header := "# Résumés – " ++ day_iso ++ "\n\n"
  if articles = [] then header ++ "_Aucun article._\n"
  else String.intercalate "\n" (header :: articles.map renderEntry)

/-- Fill in the defaults `render_markdown` applies through `dict.get`:
a missing title becomes the literal placeholder, the other displayed
fields become empty strings. -/
def fillDefaults (r : Record) : Record :=
  { id := r.id
    title := some (r.title.getD "(Sans titre)")
    link := some (r.link.getD "")
    source := some (r.source.getD "")
    pub_date := some (r.pub_date.getD "")
    summary := some (r.summary.getD "")
    added_on := r.added_on }

/-- `re.match(r"^\d{4}-\d{2}-\d{2}$", s)` on the strings this program
feeds it (stripped, or at most 10 characters): exactly ten characters
shaped `DDDD-DD-DD`.  (`\d` is modelled as an ASCII digit; the `$`
before-final-newline quirk cannot fire on stripped or length-`≤ 10`
input.) -/
def isDayPat (s : String) : Bool :=
  match s.data with
  | [y1, y2, y3, y4, h1, m1, m2, h2, d1, d2] =>
      y1.isDigit && y2.isDigit && y3.isDigit && y4.isDigit && h1 == '-' &&
      m1.isDigit && m2.isDigit && h2 == '-' && d1.isDigit && d2.isDigit
  | _ => false

/-- Python `str.strip()`: drop leading and trailing whitespace
(whitespace modelled as the ASCII whitespace characters). -/
def pyStrip (s : String) : String :=
  ⟨((s.data.dropWhile Char.isWhitespace).reverse.dropWhile Char.isWhitespace).reverse⟩

/-- The bucket key of one record (`main.py` lines 334-338): the stripped
`pub_date` when it matches the day pattern, else the first ten characters
of the stripped `added_on` when those match, else the current day. -/
def dayKey (today : String) (r : Record) : String :=
  let d := pyStrip (r.pub_date.getD "")
  if isDayPat d then d
  else
    let d2 := (pyStrip (r.added_on.getD "")).take 10
    if isDayPat d2 then d2 else today

/-- `by_day[d].append(a)` on a `defaultdict(list)`: extend the bucket at
an existing key in place, else append a fresh singleton bucket. -/
def addToBucket : List (String × List Record) → String → Record → List (String × List Record)
  | [], k, r => [(k, [r])]
  | p :: m, k, r => if p.1 = k then (p.1, p.2 ++ [r]) :: m else p :: addToBucket m k r

/-- The grouping loop of `render_from_history` (`main.py` lines 332-339). -/
def groupByDay (today : String) (rs : List Record) : List (String × List Record) :=
  rs.foldl (fun m r => addToBucket m (dayKey today r) r) []

/-- The contents of bucket `k` (empty when the day is absent). -/
def bucketOf (m : List (String × List Record)) (k : String) : List Record :=
  ((m.find? (fun p => decide (p.1 = k))).map Prod.snd).getD []

/-- Concatenation of all bucket contents in bucket order. -/
def joinBuckets (m : List (String × List Record)) : List Record :=
  m.foldr (fun p acc => p.2 ++ acc) []

/-- A candidate produced by the collection loop (`main.py` lines 274-281). -/
structure Item where
  uid : String
  title : String
  link : String
  source : String
  hint : String
  pub_date : String
deriving DecidableEq

/-- The mutable state of the collection phase: the seen set (modelled as a
duplicate-free insertion-ordered list) and the in-memory history list. -/
structure CollectState where
  seen : List String
  history : List HistEntry
deriving DecidableEq

/-- `seen.add(uid)` (`main.py` line 297). -/
def addSeen (s : List String) (x : String) : List String :=
  if x ∈ s then s else s ++ [x]

/-- The literal fallback summary (`main.py` line 295). -/
def placeholderSummary : String :=
  "- (Résumé indisponible – texte non détecté)."

/-- One iteration of the summarize-and-append loop (`main.py` lines
286-309).  `fetch` models `fetch_text` and `summarize` models
`summarize_text` (both already catch their own failures and return
strings, so they are opaque total functions here). -/
def processItem (fetch summarize : String → String) (today : String)
    (st : CollectState) (it : Item) : CollectState :=
  let full := fetch it.link
  let base := if full ≠ "" then full else if it.hint ≠ "" then it.hint else it.title
  let summary0 := if base ≠ "" then summarize base else ""
  let summary := if summary0 = "" then placeholderSummary else summary0
  { seen := addSeen st.seen it.uid
    history := st.history ++ [HistEntry.dict
      { id := some it.uid
        title := some it.title
        link := some it.link
        source := some it.source
        pub_date := some it.pub_date
        summary := some summary
        added_on := some today }] }

/-- A filesystem side effect of the run. -/
inductive Eff where
  | mkdirOut
  | writeSeen (ids : List String)
  | writeHistory (rs : List Record)
  | writeDoc (name : String) (content : String)
deriving DecidableEq

/-- `max(days_sorted)` (`main.py` line 359); every day string is `≥ ""`,
so a fold from `""` computes Python's `max` on a nonempty list. -/
def maxDay (l : List String) : String :=
  l.foldl (fun m d => if strLeB m d then d else m) ""

/-- All bucket contents in descending day order (`main.py` lines 365-367). -/
def flatDesc (byDay : List (String × List Record)) : List Record :=
  ((isortBy strGeB (byDay.map Prod.fst)).map (bucketOf byDay)).flatten

/-- The file effects of `render_from_history` (`main.py` lines 327-374):
the empty-history sentinel outputs, or one document per day (written in
ascending day order) plus `latest.md` and `all_articles.md`. -/
def renderFromHistory (today : String) (rs : List Record) : List Eff :=
  let byDay := groupByDay today rs
  if byDay = [] then
    [Eff.writeDoc "all_articles.md" "# Historique (vide)\n\n",
     Eff.writeDoc "latest.md" "# Résumés – (vide)\n\n_Aucun article._\n"]
  else
    let daysSorted := isortBy strLeB (byDay.map Prod.fst)
    let latestDay := maxDay daysSorted
    Eff.mkdirOut ::
      daysSorted.map (fun d => Eff.writeDoc (d ++ ".md") (renderMarkdown d (bucketOf byDay d)))
      ++ [Eff.writeDoc "latest.md" (renderMarkdown latestDay (bucketOf byDay latestDay)),
          Eff.writeDoc "all_articles.md" (renderMarkdown latestDay (flatDesc byDay))]

/-- Conversion of a loaded history list to records; `none` models the
`AttributeError` a non-dict entry would raise inside
`render_from_history`. -/
def asRecords : List HistEntry → Option (List Record)
  | [] => some []
  | .dict r :: l => (asRecords l).map (fun rs => r :: rs)
  | .nonDict :: _ => none

/-- The `RENDER_ONLY=1` path of `main` (`main.py` lines 225, 234-236):
create the output directory, then regenerate everything from the loaded
history without collecting, merging or persisting. -/
def runReplay (today : String) (loaded : List HistEntry) : Option (List Eff) :=
  (asRecords loaded).map (fun rs => Eff.mkdirOut :: renderFromHistory today rs)

/-- The non-replay path of `main` (`main.py` lines 216-324), with the
collection loop's surviving candidates supplied as `collected` (feed
reading is an external collaborator).  Returns the effect trace and the
process exit code (`sys.exit(1)` on an empty feed list, line 240). -/
def mainCollect (feeds : List String) (loadedSeen : List String)
    (loadedHistory : List HistEntry) (fetch summarize : String → String)
    (collected : List Item) (today : String) : List Eff × Nat :=
  if feeds = [] then ([Eff.mkdirOut], 1)
  else
    let st := collected.foldl (processItem fetch summarize today)
      { seen := loadedSeen, history := loadedHistory }
    let hist := mergeAndSort st.history
    (Eff.mkdirOut :: Eff.writeSeen (isortBy strLeB st.seen) ::
       Eff.writeHistory hist :: renderFromHistory today hist, 0)

/-- The rendered-document effects of a trace (the per-day, latest and
full-history files). -/
def docEffects (es : List Eff) : List Eff :=
  es.filter (fun e => match e with | .writeDoc _ _ => true | _ => false)

/-- Whether the record's id is one of the given ids. -/
def idIn (r : Record) (ids : List String) : Bool :=
  match r.id with
  | some s => decide (s ∈ ids)
  | none => false

/-- A minimal filesystem abstraction: whether the output directory
exists.  `os.makedirs(out_dir, exist_ok=True)` makes it exist. -/
structure FSState where
  outDirExists : Bool
deriving DecidableEq

/-- Interpret one effect on the filesystem abstraction. -/
def applyEff (fs : FSState) : Eff → FSState
  | .mkdirOut => { outDirExists := true }
  | _ => fs

/-- Interpret a trace on the filesystem abstraction. -/
def applyEffs (fs : FSState) (es : List Eff) : FSState :=
  es.foldl applyEff fs

/-- Well-formedness of a dedup pair: the stored record carries its own
(non-empty) key as id. -/
def goodPair (p : String × Record) : Prop := p.2.id = some p.1 ∧ p.1 ≠ ""

/-- The dedup keys the entries of `l` contribute (the ids of its valid
record entries, in order, duplicates kept). -/
def kvKeys (l : List HistEntry) : List String :=
  l.filterMap (fun e => (entryKV e).map Prod.fst)

/-! ### Generic lemmas about the stable insertion sort -/

theorem insortBy_perm (le : α → α → Bool) (a : α) (l : List α) :
    List.Perm (insortBy le a l) (a :: l) := by
  induction l with
  | nil => exact List.Perm.refl _
  | cons b l ih =>
    simp only [insortBy]
    split
    · exact List.Perm.refl _
    · exact (ih.cons b).trans (List.Perm.swap a b l)

theorem isortBy_perm (le : α → α → Bool) (l : List α) :
    List.Perm (isortBy le l) l := by
  induction l with
  | nil => exact List.Perm.refl _
  | cons a l ih =>
    exact (insortBy_perm le a (isortBy le l)).trans (ih.cons a)

theorem insortBy_pairwise (le : α → α → Bool)
    (htot : ∀ a b, le a b = true ∨ le b a = true)
    (htrans : ∀ a b c, le a b = true → le b c = true → le a c = true)
    (a : α) (l : List α) (h : l.Pairwise (fun x y => le x y = true)) :
    (insortBy le a l).Pairwise (fun x y => le x y = true) := by
  induction l with
  | nil => simp [insortBy]
  | cons b l ih =>
    rw [List.pairwise_cons] at h
    obtain ⟨hb, hl⟩ := h
    simp only [insortBy]
    split
    case isTrue hab =>
      rw [List.pairwise_cons]
      refine ⟨?_, List.pairwise_cons.mpr ⟨hb, hl⟩⟩
      intro x hx
      rcases List.mem_cons.mp hx with hxa | hx
      · rw [hxa]; exact hab
      · exact htrans a b x hab (hb x hx)
    case isFalse hab =>
      rw [List.pairwise_cons]
      refine ⟨?_, ih hl⟩
      intro x hx
      rcases List.mem_cons.mp ((insortBy_perm le a l).mem_iff.mp hx) with hxa | hx'
      · rw [hxa]
        rcases htot a b with h1 | h1
        · exact absurd h1 hab
        · exact h1
      · exact hb x hx'

theorem isortBy_pairwise (le : α → α → Bool)
    (htot : ∀ a b, le a b = true ∨ le b a = true)
    (htrans : ∀ a b c, le a b = true → le b c = true → le a c = true)
    (l : List α) :
    (isortBy le l).Pairwise (fun x y => le x y = true) := by
  induction l with
  | nil => simp [isortBy]
  | cons a l ih => exact insortBy_pairwise le htot htrans a _ ih

theorem isortBy_of_pairwise (le : α → α → Bool) (l : List α)
    (h : l.Pairwise (fun x y => le x y = true)) : isortBy le l = l := by
  induction l with
  | nil => rfl
  | cons a l ih =>
    rw [List.pairwise_cons] at h
    obtain ⟨ha, hl⟩ := h
    simp only [isortBy, ih hl]
    cases l with
    | nil => rfl
    | cons b l' =>
      simp only [insortBy, ha b (List.mem_cons_self b l'), if_pos]

theorem insortBy_filter (le : α → α → Bool)
    (htrans : ∀ a b c, le a b = true → le b c = true → le a c = true)
    (p : α → Bool) (a : α) (l : List α)
    (hs : l.Pairwise (fun x y => le x y = true)) :
    (insortBy le a l).filter p =
      if p a then insortBy le a (l.filter p) else l.filter p := by
  induction l with
  | nil =>
    cases hpa : p a <;> simp [insortBy, List.filter, hpa]
  | cons b bs ih =>
    rw [List.pairwise_cons] at hs
    obtain ⟨hb, hbs⟩ := hs
    simp only [insortBy]
    split
    case isTrue hab =>
      cases hpa : p a with
      | true =>
        cases hpb : p b with
        | true =>
          simp [List.filter_cons, hpa, hpb, insortBy, hab]
        | false =>
          rw [List.filter_cons_of_pos (by rw [hpa]), List.filter_cons_of_neg (by simp [hpb]),
            if_pos rfl]
          cases hfb : bs.filter p with
          | nil => simp [insortBy]
          | cons c cs =>
            have hc : c ∈ bs.filter p := by rw [hfb]; exact List.mem_cons_self c cs
            have hcbs : c ∈ bs := List.mem_of_mem_filter hc
            have hac : le a c = true := htrans a b c hab (hb c hcbs)
            simp [insortBy, hac]
      | false =>
        simp [List.filter_cons, hpa]
    case isFalse hab =>
      cases hpb : p b with
      | true =>
        cases hpa : p a with
        | true =>
          simp [List.filter_cons, hpa, hpb, insortBy, hab, ih hbs]
        | false =>
          simp [List.filter_cons, hpa, hpb, ih hbs]
      | false =>
        cases hpa : p a with
        | true =>
          simp [List.filter_cons, hpa, hpb, ih hbs]
        | false =>
          simp [List.filter_cons, hpa, hpb, ih hbs]

theorem isortBy_filter (le : α → α → Bool)
    (htot : ∀ a b, le a b = true ∨ le b a = true)
    (htrans : ∀ a b c, le a b = true → le b c = true → le a c = true)
    (p : α → Bool) (l : List α) :
    (isortBy le l).filter p = isortBy le (l.filter p) := by
  induction l with
  | nil => rfl
  | cons a l ih =>
    simp only [isortBy]
    rw [insortBy_filter le htrans p a _ (isortBy_pairwise le htot htrans l), ih]
    cases hpa : p a with
    | true => simp [List.filter_cons, hpa, isortBy]
    | false => simp [List.filter_cons, hpa]

/-! ### The sort comparison is a total preorder -/

theorem strLtB_iff (s t : String) : strLtB s t = true ↔ s < t := by
  rw [strLtB, decide_eq_true_eq]
  exact String.lt_iff_toList_lt.symm

theorem strLeB_iff (s t : String) : strLeB s t = true ↔ s ≤ t := by
  rw [strLeB, Bool.or_eq_true, decide_eq_true_eq, strLtB_iff]
  constructor
  · intro h
    rcases h with h | h
    · exact le_of_lt h
    · exact le_of_eq h
  · intro h
    rcases lt_or_eq_of_le h with h | h
    · exact Or.inl h
    · exact Or.inr h

theorem pairLeB_iff (x y : String × String) : pairLeB x y = true ↔ pairLeP x y := by
  simp only [pairLeB, pairLeP, Bool.or_eq_true, Bool.and_eq_true, decide_eq_true_eq,
    strLtB_iff, strLeB_iff]

theorem pairLeB_refl (x : String × String) : pairLeB x x = true := by
  rw [pairLeB_iff]
  exact Or.inr ⟨rfl, le_refl _⟩

theorem pairLeB_total (x y : String × String) :
    pairLeB x y = true ∨ pairLeB y x = true := by
  rw [pairLeB_iff, pairLeB_iff]
  rcases lt_trichotomy x.1 y.1 with h | h | h
  · exact Or.inl (Or.inl h)
  · rcases le_total x.2 y.2 with h2 | h2
    · exact Or.inl (Or.inr ⟨h, h2⟩)
    · exact Or.inr (Or.inr ⟨h.symm, h2⟩)
  · exact Or.inr (Or.inl h)

theorem pairLeB_trans (x y z : String × String)
    (h1 : pairLeB x y = true) (h2 : pairLeB y z = true) : pairLeB x z = true := by
  rw [pairLeB_iff] at h1 h2 ⊢
  rcases h1 with h1 | ⟨h1e, h1le⟩
  · rcases h2 with h2 | ⟨h2e, _⟩
    · exact Or.inl (h1.trans h2)
    · exact Or.inl (h2e ▸ h1)
  · rcases h2 with h2 | ⟨h2e, h2le⟩
    · exact Or.inl (h1e ▸ h2)
    · exact Or.inr ⟨h1e.trans h2e, h1le.trans h2le⟩

theorem pairLeB_antisymm (x y : String × String)
    (h1 : pairLeB x y = true) (h2 : pairLeB y x = true) : x = y := by
  rw [pairLeB_iff] at h1 h2
  rcases h1 with h1 | ⟨h1e, h1le⟩
  · rcases h2 with h2 | ⟨h2e, _⟩
    · exact absurd (h1.trans h2) (lt_irrefl _)
    · exact absurd h1 (h2e ▸ lt_irrefl _)
  · rcases h2 with h2 | ⟨h2e, h2le⟩
    · exact absurd h2 (h1e ▸ lt_irrefl _)
    · exact Prod.ext h1e (le_antisymm h1le h2le)

theorem recLE_total (a b : Record) : recLE a b = true ∨ recLE b a = true :=
  pairLeB_total (keyOf b) (keyOf a)

theorem recLE_trans (a b c : Record)
    (h1 : recLE a b = true) (h2 : recLE b c = true) : recLE a c = true :=
  pairLeB_trans (keyOf c) (keyOf b) (keyOf a) h2 h1

/-! ### Lemmas about the dedup dictionary -/

theorem entryKV_inv {e : HistEntry} {k : String} {r : Record}
    (h : entryKV e = some (k, r)) : r.id = some k ∧ k ≠ "" ∧ e = .dict r := by
  cases e with
  | dict r' =>
    simp only [entryKV] at h
    split at h
    next s hid =>
      split at h
      · exact absurd h (by simp)
      next hs =>
        rw [Option.some.injEq, Prod.mk.injEq] at h
        obtain ⟨hk, hr⟩ := h
        subst hk; subst hr
        exact ⟨hid, hs, rfl⟩
    next hid => exact absurd h (by simp)
  | nonDict => exact absurd h (by simp [entryKV])

theorem lookupA_cons (p : String × Record) (m : List (String × Record)) (k' : String) :
    lookupA (p :: m) k' = if p.1 = k' then some p.2 else lookupA m k' := by
  by_cases h : p.1 = k'
  · simp [lookupA, List.find?, h]
  · simp [lookupA, List.find?, h]

theorem lookupA_updateAssoc (m : List (String × Record)) (k k' : String) (r : Record) :
    lookupA (updateAssoc m k r) k' = if k' = k then some r else lookupA m k' := by
  induction m with
  | nil =>
    by_cases h : k' = k
    · subst h; simp [updateAssoc, lookupA_cons]
    · have hk : decide (k = k') = false := by
        have h2 : k ≠ k' := Ne.symm h
        simp [h2]
      simp [updateAssoc, lookupA, List.find?, h, hk]
  | cons p m ih =>
    simp only [updateAssoc]
    by_cases hpk : p.1 = k
    · rw [if_pos hpk]
      by_cases h : k' = k
      · subst h
        simp [lookupA_cons, hpk]
      · have hp : ¬ p.1 = k' := fun hc => h (hc ▸ hpk)
        rw [lookupA_cons, lookupA_cons, if_neg hp, if_neg hp, if_neg h]
    · rw [if_neg hpk]
      by_cases hpk' : p.1 = k'
      · have hk'k : ¬ k' = k := fun hc => hpk (hpk'.trans hc)
        rw [lookupA_cons, lookupA_cons, if_pos hpk', if_pos hpk', if_neg hk'k]
      · rw [lookupA_cons, lookupA_cons, if_neg hpk', if_neg hpk', ih]


theorem updateAssoc_keys (m : List (String × Record)) (k : String) (r : Record) :
    (updateAssoc m k r).map Prod.fst =
      if k ∈ m.map Prod.fst then m.map Prod.fst else m.map Prod.fst ++ [k] := by
  induction m with
  | nil => simp [updateAssoc]
  | cons p m ih =>
    simp only [updateAssoc]
    by_cases hpk : p.1 = k
    · simp [hpk]
    · have hk : ¬ k = p.1 := fun hc => hpk hc.symm
      by_cases hm : k ∈ m.map Prod.fst
      · simp [hpk, hk, hm, ih]
      · simp [hpk, hk, hm, ih]

theorem updateAssoc_not_mem {m : List (String × Record)} {k : String} {r : Record}
    (h : k ∉ m.map Prod.fst) : updateAssoc m k r = m ++ [(k, r)] := by
  induction m with
  | nil => rfl
  | cons p m ih =>
    rw [List.map_cons, List.mem_cons] at h
    push_neg at h
    simp only [updateAssoc, ih h.2, List.cons_append]
    rw [if_neg (fun hc : p.1 = k => h.1 hc.symm)]

theorem lookupA_eq_none {m : List (String × Record)} {s : String}
    (h : s ∉ m.map Prod.fst) : lookupA m s = none := by
  induction m with
  | nil => rfl
  | cons p m ih =>
    rw [List.map_cons, List.mem_cons] at h
    push_neg at h
    rw [lookupA_cons, if_neg (fun hc => h.1 hc.symm)]
    exact ih h.2

theorem dedupFold_keys_nodup : ∀ (l : List HistEntry) (m : List (String × Record)),
    (m.map Prod.fst).Nodup → ((l.foldl dedupStep m).map Prod.fst).Nodup := by
  intro l
  induction l with
  | nil => intro m h; exact h
  | cons e l ih =>
    intro m h
    rw [List.foldl_cons]
    apply ih
    cases hekv : entryKV e with
    | none => simpa [dedupStep, hekv]
    | some kr =>
      obtain ⟨k, r⟩ := kr
      simp only [dedupStep, hekv]
      rw [updateAssoc_keys]
      by_cases hm : k ∈ m.map Prod.fst
      · simpa [hm]
      · simpa [hm, List.nodup_append] using h

theorem updateAssoc_good {m : List (String × Record)} {k : String} {r : Record}
    (hm : ∀ p ∈ m, goodPair p) (hkr : goodPair (k, r)) :
    ∀ p ∈ updateAssoc m k r, goodPair p := by
  induction m with
  | nil =>
    intro p hp
    rw [updateAssoc, List.mem_singleton] at hp
    rw [hp]; exact hkr
  | cons p0 m ih =>
    intro p hp
    simp only [updateAssoc] at hp
    by_cases h : p0.1 = k
    · rw [if_pos h] at hp
      rcases List.mem_cons.mp hp with h1 | h1
      · rw [h1]
        refine ⟨?_, ?_⟩ <;> rw [h]
        · exact hkr.1
        · exact hkr.2
      · exact hm p (List.mem_cons_of_mem p0 h1)
    · rw [if_neg h] at hp
      rcases List.mem_cons.mp hp with h1 | h1
      · rw [h1]; exact hm p0 (List.mem_cons_self p0 m)
      · exact ih (fun q hq => hm q (List.mem_cons_of_mem p0 hq)) p h1

theorem dedupFold_good : ∀ (l : List HistEntry) (m : List (String × Record)),
    (∀ p ∈ m, goodPair p) → ∀ p ∈ l.foldl dedupStep m, goodPair p := by
  intro l
  induction l with
  | nil => intro m hm; exact hm
  | cons e l ih =>
    intro m hm
    rw [List.foldl_cons]
    apply ih
    cases hekv : entryKV e with
    | none => simpa [dedupStep, hekv] using hm
    | some kr =>
      obtain ⟨k, r⟩ := kr
      simp only [dedupStep, hekv]
      obtain ⟨hid, hne, _⟩ := entryKV_inv hekv
      exact updateAssoc_good hm ⟨hid, hne⟩

theorem dedupFold_lookup : ∀ (l : List HistEntry) (m : List (String × Record)) (s : String),
    lookupA (l.foldl dedupStep m) s = lastUpd (l.filterMap entryKV) s (lookupA m s) := by
  intro l
  induction l with
  | nil => intro m s; rfl
  | cons e l ih =>
    intro m s
    rw [List.foldl_cons]
    cases hekv : entryKV e with
    | none =>
      simp only [dedupStep, hekv]
      rw [List.filterMap_cons_none hekv]
      exact ih m s
    | some kr =>
      obtain ⟨k, r⟩ := kr
      simp only [dedupStep, hekv]
      rw [List.filterMap_cons_some hekv, ih, lookupA_updateAssoc]
      simp only [lastUpd, List.foldl_cons]
      by_cases h : s = k
      · simp [h]
      · have hks : ¬ k = s := fun hc => h hc.symm
        simp [h, hks]

theorem dedupAssoc_lookup (l : List HistEntry) (s : String) :
    lookupA (dedupAssoc l) s = lastWith l s :=
  dedupFold_lookup l [] s

theorem dedupAssoc_keys_nodup (l : List HistEntry) :
    ((dedupAssoc l).map Prod.fst).Nodup :=
  dedupFold_keys_nodup l [] List.nodup_nil

theorem dedupAssoc_good (l : List HistEntry) :
    ∀ p ∈ dedupAssoc l, goodPair p :=
  dedupFold_good l [] (by intro p hp; exact absurd hp (List.not_mem_nil p))

theorem values_filter_id (m : List (String × Record)) (s : String)
    (hg : ∀ p ∈ m, goodPair p) (hn : (m.map Prod.fst).Nodup) :
    (m.map Prod.snd).filter (fun r => decide (r.id = some s)) = (lookupA m s).toList := by
  induction m with
  | nil => rfl
  | cons p m ih =>
    obtain ⟨hid, hne⟩ := hg p (List.mem_cons_self p m)
    have hgm : ∀ q ∈ m, goodPair q := fun q hq => hg q (List.mem_cons_of_mem p hq)
    rw [List.map_cons, List.nodup_cons] at hn
    obtain ⟨hp1, hnm⟩ := hn
    rw [List.map_cons, List.filter_cons, lookupA_cons]
    by_cases h : p.1 = s
    · have hkeep : decide (p.2.id = some s) = true := by simp [hid, h]
      rw [hkeep, if_pos rfl, if_pos h]
      have htail : (m.map Prod.snd).filter (fun r => decide (r.id = some s)) = [] := by
        rw [ih hgm hnm, lookupA_eq_none (h ▸ hp1)]
        rfl
      rw [htail]
      rfl
    · have hdrop : decide (p.2.id = some s) = false := by simp [hid, h]
      rw [hdrop, if_neg (by simp), if_neg h]
      exact ih hgm hnm

/-! ### Last-write-wins characterization of the merge -/

theorem mergeDedup_filter_id (l : List HistEntry) (s : String) :
    (mergeDedup l).filter (fun r => decide (r.id = some s)) = (lastWith l s).toList := by
  rw [mergeDedup, values_filter_id _ s (dedupAssoc_good l) (dedupAssoc_keys_nodup l),
    dedupAssoc_lookup]

theorem mergeAndSort_filter_id (l : List HistEntry) (s : String) :
    (mergeAndSort l).filter (fun r => decide (r.id = some s)) = (lastWith l s).toList := by
  rw [mergeAndSort, isortBy_filter recLE recLE_total recLE_trans, mergeDedup_filter_id]
  cases lastWith l s with
  | none => rfl
  | some r => simp [Option.toList, isortBy, insortBy]

theorem mergeAndSort_mem_good (l : List HistEntry) :
    ∀ r ∈ mergeAndSort l, ∃ s, r.id = some s ∧ s ≠ "" := by
  intro r hr
  have hr2 : r ∈ mergeDedup l := (isortBy_perm recLE (mergeDedup l)).mem_iff.mp hr
  rw [mergeDedup] at hr2
  obtain ⟨p, hp, hps⟩ := List.mem_map.mp hr2
  obtain ⟨hid, hne⟩ := dedupAssoc_good l p hp
  exact ⟨p.1, hps ▸ hid, hne⟩

/-! ### Lemmas about the day grouping -/

theorem bucketOf_cons (p : String × List Record) (m : List (String × List Record))
    (k' : String) :
    bucketOf (p :: m) k' = if p.1 = k' then p.2 else bucketOf m k' := by
  by_cases h : p.1 = k' <;> simp [bucketOf, List.find?, h]

theorem bucketOf_addToBucket (m : List (String × List Record)) (k k' : String) (r : Record) :
    bucketOf (addToBucket m k r) k' =
      if k' = k then bucketOf m k' ++ [r] else bucketOf m k' := by
  induction m with
  | nil =>
    by_cases h : k' = k
    · subst h; simp [addToBucket, bucketOf_cons, bucketOf]
    · have h2 : ¬ k = k' := fun hc => h hc.symm
      simp [addToBucket, bucketOf_cons, bucketOf, h, h2]
  | cons p m ih =>
    simp only [addToBucket]
    by_cases hpk : p.1 = k
    · rw [if_pos hpk]
      by_cases h : k' = k
      · subst h
        rw [bucketOf_cons, bucketOf_cons, if_pos hpk, if_pos hpk, if_pos rfl]
      · have hp : ¬ p.1 = k' := fun hc => h (hc ▸ hpk)
        rw [bucketOf_cons, bucketOf_cons, if_neg hp, if_neg hp, if_neg h]
    · rw [if_neg hpk]
      by_cases hpk' : p.1 = k'
      · have hk'k : ¬ k' = k := fun hc => hpk (hpk'.trans hc)
        rw [bucketOf_cons, bucketOf_cons, if_pos hpk', if_pos hpk', if_neg hk'k]
      · rw [bucketOf_cons, bucketOf_cons, if_neg hpk', if_neg hpk', ih]

theorem groupFold_bucket (today : String) : ∀ (rs : List Record)
    (m : List (String × List Record)) (k : String),
    bucketOf (rs.foldl (fun m r => addToBucket m (dayKey today r) r) m) k =
      bucketOf m k ++ rs.filter (fun r => decide (dayKey today r = k)) := by
  intro rs
  induction rs with
  | nil => intro m k; simp
  | cons r rs ih =>
    intro m k
    rw [List.foldl_cons, ih, bucketOf_addToBucket]
    by_cases h : k = dayKey today r
    · have hd : decide (dayKey today r = k) = true := by simp [h]
      rw [if_pos h, List.filter_cons, hd, if_pos rfl]
      simp
    · have hd : decide (dayKey today r = k) = false := by
        have h2 : ¬ dayKey today r = k := fun hc => h hc.symm
        simp [h2]
      rw [if_neg h, List.filter_cons, hd]
      simp

theorem addToBucket_keys (m : List (String × List Record)) (k : String) (r : Record) :
    (addToBucket m k r).map Prod.fst =
      if k ∈ m.map Prod.fst then m.map Prod.fst else m.map Prod.fst ++ [k] := by
  induction m with
  | nil => simp [addToBucket]
  | cons p m ih =>
    simp only [addToBucket]
    by_cases hpk : p.1 = k
    · simp [hpk]
    · have hk : ¬ k = p.1 := fun hc => hpk hc.symm
      by_cases hm : k ∈ m.map Prod.fst
      · simp [hpk, hk, hm, ih]
      · simp [hpk, hk, hm, ih]

theorem groupFold_keys_nodup (today : String) : ∀ (rs : List Record)
    (m : List (String × List Record)),
    (m.map Prod.fst).Nodup →
    ((rs.foldl (fun m r => addToBucket m (dayKey today r) r) m).map Prod.fst).Nodup := by
  intro rs
  induction rs with
  | nil => intro m h; exact h
  | cons r rs ih =>
    intro m h
    rw [List.foldl_cons]
    apply ih
    rw [addToBucket_keys]
    by_cases hm : dayKey today r ∈ m.map Prod.fst
    · simpa [hm]
    · simpa [hm, List.nodup_append] using h

theorem groupFold_keys_mono (today : String) : ∀ (rs : List Record)
    (m : List (String × List Record)) (k : String),
    k ∈ m.map Prod.fst →
    k ∈ (rs.foldl (fun m r => addToBucket m (dayKey today r) r) m).map Prod.fst := by
  intro rs
  induction rs with
  | nil => intro m k h; exact h
  | cons r rs ih =>
    intro m k h
    rw [List.foldl_cons]
    apply ih
    rw [addToBucket_keys]
    by_cases hm : dayKey today r ∈ m.map Prod.fst
    · rw [if_pos hm]; exact h
    · rw [if_neg hm]; exact List.mem_append_left _ h

theorem groupFold_keys_mem (today : String) : ∀ (rs : List Record)
    (m : List (String × List Record)) (r : Record), r ∈ rs →
    dayKey today r ∈ (rs.foldl (fun m r => addToBucket m (dayKey today r) r) m).map Prod.fst := by
  intro rs
  induction rs with
  | nil => intro m r h; exact absurd h (List.not_mem_nil r)
  | cons r0 rs ih =>
    intro m r h
    rw [List.foldl_cons]
    rcases List.mem_cons.mp h with h1 | h1
    · subst h1
      apply groupFold_keys_mono
      rw [addToBucket_keys]
      by_cases hm : dayKey today r ∈ m.map Prod.fst
      · rw [if_pos hm]; exact hm
      · rw [if_neg hm]
        exact List.mem_append_right _ (List.mem_cons_self _ _)
    · exact ih _ r h1

theorem joinBuckets_addToBucket (m : List (String × List Record)) (k : String) (r : Record) :
    List.Perm (joinBuckets (addToBucket m k r)) (joinBuckets m ++ [r]) := by
  induction m with
  | nil => simp [addToBucket, joinBuckets]
  | cons p m ih =>
    simp only [addToBucket]
    by_cases h : p.1 = k
    · rw [if_pos h]
      simp only [joinBuckets, List.foldr_cons]
      rw [List.append_assoc]
      refine (List.Perm.append_left p.2 List.perm_append_comm).trans ?_
      rw [List.append_assoc]
    · rw [if_neg h]
      simp only [joinBuckets, List.foldr_cons] at ih ⊢
      refine (List.Perm.append_left p.2 ih).trans ?_
      rw [← List.append_assoc]

theorem groupFold_join_perm (today : String) : ∀ (rs : List Record)
    (m : List (String × List Record)),
    List.Perm (joinBuckets (rs.foldl (fun m r => addToBucket m (dayKey today r) r) m))
      (joinBuckets m ++ rs) := by
  intro rs
  induction rs with
  | nil => intro m; simp
  | cons r rs ih =>
    intro m
    rw [List.foldl_cons]
    refine (ih _).trans ?_
    have h1 := (joinBuckets_addToBucket m (dayKey today r) r).append_right rs
    refine h1.trans ?_
    rw [List.append_assoc]
    exact List.Perm.refl _

/-! ### Idempotence of the merge on already-merged histories -/

theorem dedupFold_fresh : ∀ (rs : List Record) (m : List (String × Record)),
    (∀ r ∈ rs, ∃ s, r.id = some s ∧ s ≠ "") →
    (∀ r ∈ rs, r.id.getD "" ∉ m.map Prod.fst) →
    (rs.map (fun r => r.id.getD "")).Nodup →
    (rs.map HistEntry.dict).foldl dedupStep m = m ++ rs.map (fun r => (r.id.getD "", r)) := by
  intro rs
  induction rs with
  | nil => intro m _ _ _; simp
  | cons r rs ih =>
    intro m hv hf hn
    obtain ⟨s, hs, hne⟩ := hv r (List.mem_cons_self r rs)
    have hkey : r.id.getD "" = s := by rw [hs]; rfl
    have hekv : entryKV (.dict r) = some (s, r) := by simp [entryKV, hs, hne]
    rw [List.map_cons, List.foldl_cons,
      show dedupStep m (.dict r) = updateAssoc m s r by simp [dedupStep, hekv],
      updateAssoc_not_mem (hkey ▸ hf r (List.mem_cons_self r rs))]
    rw [List.map_cons, List.nodup_cons] at hn
    rw [ih (m ++ [(s, r)])
      (fun r' hr' => hv r' (List.mem_cons_of_mem r hr'))
      (fun r' hr' => by
        rw [List.map_append, List.mem_append]
        push_neg
        refine ⟨hf r' (List.mem_cons_of_mem r hr'), ?_⟩
        simp only [List.map_cons, List.map_nil, List.mem_singleton]
        intro hc
        refine hn.1 ?_
        rw [hkey, ← hc]
        exact List.mem_map_of_mem (fun r => r.id.getD "") hr' 
      ) hn.2]
    rw [List.append_assoc, List.map_cons, List.singleton_append, hkey]

theorem mergeDedup_of_valid (rs : List Record)
    (hv : ∀ r ∈ rs, ∃ s, r.id = some s ∧ s ≠ "")
    (hn : (rs.map (fun r => r.id.getD "")).Nodup) :
    mergeDedup (rs.map HistEntry.dict) = rs := by
  rw [mergeDedup, dedupAssoc, dedupFold_fresh rs [] hv (by simp) hn]
  rw [List.nil_append, List.map_map]
  conv_rhs => rw [← List.map_id rs]
  apply List.map_congr_left
  intro a _
  rfl

theorem mergeAndSort_ids_nodup (l : List HistEntry) :
    ((mergeAndSort l).map (fun r => r.id.getD "")).Nodup := by
  have hperm := (isortBy_perm recLE (mergeDedup l)).map (fun r => r.id.getD "")
  rw [mergeAndSort]
  rw [hperm.nodup_iff]
  have heq : (mergeDedup l).map (fun r => r.id.getD "") = (dedupAssoc l).map Prod.fst := by
    rw [mergeDedup, List.map_map]
    apply List.map_congr_left
    intro p hp
    obtain ⟨hid, _⟩ := dedupAssoc_good l p hp
    simp [Function.comp, hid]
  rw [heq]
  exact dedupAssoc_keys_nodup l

theorem mergeAndSort_idem (l : List HistEntry) :
    mergeAndSort ((mergeAndSort l).map HistEntry.dict) = mergeAndSort l := by
  have h1 : mergeAndSort ((mergeAndSort l).map HistEntry.dict) =
      isortBy recLE (mergeDedup ((mergeAndSort l).map HistEntry.dict)) := rfl
  rw [h1, mergeDedup_of_valid _ (mergeAndSort_mem_good l) (mergeAndSort_ids_nodup l)]
  exact isortBy_of_pairwise recLE _ (isortBy_pairwise recLE recLE_total recLE_trans _)

theorem asRecords_map_dict (rs : List Record) :
    asRecords (rs.map HistEntry.dict) = some rs := by
  induction rs with
  | nil => rfl
  | cons r rs ih => simp [asRecords, ih]

/-! ### Records outside the batch are untouched by a merge -/

theorem values_filter_updateAssoc (m : List (String × Record)) (k : String) (r : Record)
    (S : List String) (hk : k ∈ S) (hr : r.id = some k)
    (hg : ∀ p ∈ m, goodPair p) :
    ((updateAssoc m k r).map Prod.snd).filter (fun x => !(idIn x S)) =
      (m.map Prod.snd).filter (fun x => !(idIn x S)) := by
  induction m with
  | nil => simp [updateAssoc, idIn, hr, hk]
  | cons p m ih =>
    obtain ⟨hpid, hpne⟩ := hg p (List.mem_cons_self p m)
    simp only [updateAssoc]
    by_cases h : p.1 = k
    · rw [if_pos h]
      have h1 : (!(idIn r S)) = false := by simp [idIn, hr, hk]
      have h2 : (!(idIn p.2 S)) = false := by simp [idIn, hpid, h, hk]
      simp [List.filter_cons, h1, h2]
    · rw [if_neg h]
      simp only [List.map_cons, List.filter_cons]
      rw [ih (fun q hq => hg q (List.mem_cons_of_mem p hq))]

theorem values_filter_dedupFold (S : List String) : ∀ (batch : List HistEntry)
    (m : List (String × Record)),
    (∀ p ∈ m, goodPair p) →
    (∀ e ∈ batch, ∀ k r, entryKV e = some (k, r) → k ∈ S) →
    ((batch.foldl dedupStep m).map Prod.snd).filter (fun x => !(idIn x S)) =
      (m.map Prod.snd).filter (fun x => !(idIn x S)) := by
  intro batch
  induction batch with
  | nil => intro m _ _; rfl
  | cons e batch ih =>
    intro m hg hS
    rw [List.foldl_cons]
    cases hekv : entryKV e with
    | none =>
      simp only [dedupStep, hekv]
      exact ih m hg (fun e' he' => hS e' (List.mem_cons_of_mem e he'))
    | some kr =>
      obtain ⟨k, r⟩ := kr
      simp only [dedupStep, hekv]
      obtain ⟨hid, hne, _⟩ := entryKV_inv hekv
      rw [ih _ (updateAssoc_good hg ⟨hid, hne⟩)
        (fun e' he' => hS e' (List.mem_cons_of_mem e he'))]
      exact values_filter_updateAssoc m k r S
        (hS e (List.mem_cons_self e batch) k r hekv) hid hg

theorem kvKeys_mem {batch : List HistEntry} {e : HistEntry} {k : String} {r : Record}
    (he : e ∈ batch) (hekv : entryKV e = some (k, r)) : k ∈ kvKeys batch := by
  rw [kvKeys, List.mem_filterMap]
  exact ⟨e, he, by rw [hekv]; rfl⟩

/-! ### The claims -/

/-- C1: for every history sequence and new batch, the merged deduplicated
output contains exactly one record per distinct id — the records with id
`s` in `merge_and_sort (history ++ batch)` are exactly the one-element
list holding the last-appended record with that id (empty when no entry
carries the id), so the count is one per present id and the surviving
record is the last-appended one (last-write-wins by append order). -/
theorem C1_merge_last_write_wins (hist batch : List HistEntry) (s : String) :
    (mergeAndSort (hist ++ batch)).filter (fun r => decide (r.id = some s)) =
      (lastWith (hist ++ batch) s).toList ∧
    (mergeAndSort (hist ++ batch)).countP (fun r => decide (r.id = some s)) =
      if (lastWith (hist ++ batch) s).isSome then 1 else 0 := by
  refine ⟨mergeAndSort_filter_id _ s, ?_⟩
  rw [List.countP_eq_length_filter, mergeAndSort_filter_id _ s]
  cases lastWith (hist ++ batch) s <;> rfl

/-- C2: the merged history is pairwise sorted by `(pub_date, added_on)`
descending lexicographically; that comparison is total and, on distinct
keys, antisymmetric (so it fully determines the relative position of any
two records with distinct keys); and for every key value the records
carrying it appear in the same order as in the pre-sort deduplicated
input (stability). -/
theorem C2_sort_descending_stable (l : List HistEntry) :
    List.Pairwise (fun a b => pairLeP (keyOf b) (keyOf a)) (mergeAndSort l) ∧
    (∀ a b : Record, pairLeP (keyOf a) (keyOf b) ∨ pairLeP (keyOf b) (keyOf a)) ∧
    (∀ a b : Record, keyOf a ≠ keyOf b →
      ¬ (pairLeP (keyOf a) (keyOf b) ∧ pairLeP (keyOf b) (keyOf a))) ∧
    (∀ k : String × String, (mergeAndSort l).filter (fun r => decide (keyOf r = k)) =
      (mergeDedup l).filter (fun r => decide (keyOf r = k))) := by
  refine ⟨?_, ?_, ?_, ?_⟩
  · have h := isortBy_pairwise recLE recLE_total recLE_trans (mergeDedup l)
    exact h.imp (fun hab => (pairLeB_iff _ _).mp hab)
  · intro a b
    rcases pairLeB_total (keyOf a) (keyOf b) with h | h
    · exact Or.inl ((pairLeB_iff _ _).mp h)
    · exact Or.inr ((pairLeB_iff _ _).mp h)
  · intro a b hne hc
    exact hne (pairLeB_antisymm _ _ ((pairLeB_iff _ _).mpr hc.1) ((pairLeB_iff _ _).mpr hc.2))
  · intro k
    rw [mergeAndSort, isortBy_filter recLE recLE_total recLE_trans]
    apply isortBy_of_pairwise
    apply List.pairwise_of_forall_mem_list
    intro a ha b hb
    have hka : keyOf a = k := of_decide_eq_true (List.mem_filter.mp ha).2
    have hkb : keyOf b = k := of_decide_eq_true (List.mem_filter.mp hb).2
    show recLE a b = true
    rw [recLE, hka, hkb]
    exact pairLeB_refl k

/-- Witness for C2 at concrete records with distinct keys. -/
theorem C2_sort_descending_stable_witness :
    ¬ (pairLeP
        (keyOf { id := none, title := none, link := none, source := none,
                 pub_date := some "2024-01-02", summary := none, added_on := some "2024-01-02" })
        (keyOf { id := none, title := none, link := none, source := none,
                 pub_date := some "2024-01-01", summary := none, added_on := some "2024-01-01" }) ∧
       pairLeP
        (keyOf { id := none, title := none, link := none, source := none,
                 pub_date := some "2024-01-01", summary := none, added_on := some "2024-01-01" })
        (keyOf { id := none, title := none, link := none, source := none,
                 pub_date := some "2024-01-02", summary := none, added_on := some "2024-01-02" })) :=
  (C2_sort_descending_stable []).2.2.1 _ _ (by decide)

/-- C3 (amended): the day grouper is a complete partition — bucket keys
are distinct, each bucket holds exactly the records assigned to its day
in input order, every record's key has a bucket, and the union of the
buckets is the input multiset.  Each record's bucket key follows the
fallback policy computed on *whitespace-stripped* values: the stripped
`pub_date` when it matches the strict `YYYY-MM-DD` pattern, otherwise
the first 10 characters of the stripped `added_on` when those match the
pattern, otherwise the current processing day. -/
theorem C3_grouping_partition (today : String) (rs : List Record) :
    ((groupByDay today rs).map Prod.fst).Nodup ∧
    (∀ k, bucketOf (groupByDay today rs) k =
      rs.filter (fun r => decide (dayKey today r = k))) ∧
    (∀ r, r ∈ rs → dayKey today r ∈ (groupByDay today rs).map Prod.fst) ∧
    List.Perm (joinBuckets (groupByDay today rs)) rs ∧
    (∀ r, isDayPat (pyStrip (r.pub_date.getD "")) = true →
      dayKey today r = pyStrip (r.pub_date.getD "")) ∧
    (∀ r, isDayPat (pyStrip (r.pub_date.getD "")) = false →
      isDayPat ((pyStrip (r.added_on.getD "")).take 10) = true →
      dayKey today r = (pyStrip (r.added_on.getD "")).take 10) ∧
    (∀ r, isDayPat (pyStrip (r.pub_date.getD "")) = false →
      isDayPat ((pyStrip (r.added_on.getD "")).take 10) = false →
      dayKey today r = today) := by
  refine ⟨?_, ?_, ?_, ?_, ?_, ?_, ?_⟩
  · exact groupFold_keys_nodup today rs [] List.nodup_nil
  · intro k
    rw [groupByDay, groupFold_bucket]
    rfl
  · intro r hr
    exact groupFold_keys_mem today rs [] r hr
  · have h := groupFold_join_perm today rs []
    simpa [joinBuckets] using h
  · intro r h
    simp [dayKey, h]
  · intro r h1 h2
    simp [dayKey, h1, h2]
  · intro r h1 h2
    simp [dayKey, h1, h2]

/-- Counterexample to C3 as stated: for a record whose `pub_date` is
`"2024-01-02 "` (trailing space — it does not match the strict pattern)
and whose `added_on` is `"2023-05-05"` (its first 10 characters do match),
the claimed policy assigns bucket `"2023-05-05"`, but the code strips the
`pub_date` before the regex test and buckets the record under
`"2024-01-02"`. -/
theorem C3_counterexample :
    isDayPat "2024-01-02 " = false ∧
    isDayPat (("2023-05-05" : String).take 10) = true ∧
    groupByDay "2026-10-12"
      [{ id := some "a", title := none, link := none, source := none,
         pub_date := some "2024-01-02 ", summary := none, added_on := some "2023-05-05" }] =
      [("2024-01-02",
        [{ id := some "a", title := none, link := none, source := none,
           pub_date := some "2024-01-02 ", summary := none, added_on := some "2023-05-05" }])] ∧
    ("2024-01-02" : String) ≠ "2023-05-05" := by
  refine ⟨by decide, by decide, by decide, by decide⟩

/-- Witness for C3 at a concrete record: its key has a bucket, and the
key is the stripped `pub_date`. -/
theorem C3_grouping_partition_witness :
    dayKey "2026-10-12"
        { id := some "a", title := none, link := none, source := none,
          pub_date := some "2024-01-02", summary := none, added_on := some "2024-01-02" } ∈
      (groupByDay "2026-10-12"
        [{ id := some "a", title := none, link := none, source := none,
           pub_date := some "2024-01-02", summary := none, added_on := some "2024-01-02" }]).map
        Prod.fst ∧
    dayKey "2026-10-12"
        { id := some "a", title := none, link := none, source := none,
          pub_date := some "2024-01-02", summary := none, added_on := some "2024-01-02" } =
      pyStrip (Option.getD (Record.pub_date
        { id := some "a", title := none, link := none, source := none,
          pub_date := some "2024-01-02", summary := none, added_on := some "2024-01-02" }) "") :=
  ⟨(C3_grouping_partition "2026-10-12" _).2.2.1 _ (by decide),
   (C3_grouping_partition "2026-10-12"
     [{ id := some "a", title := none, link := none, source := none,
        pub_date := some "2024-01-02", summary := none, added_on := some "2024-01-02" }]).2.2.2.2.1
     _ (by decide)⟩

/-- C4: replay (render-only) mode over a non-empty persisted history —
a history in the image of `merge_and_sort`, which is what every save
writes — regenerates exactly the per-day, latest and full-history
documents that a normal run over the same persisted history with a
non-empty feed list and an empty collected batch writes: both reduce to
`render_from_history` of the same merged history, because merging an
already-merged history with nothing new is the identity. -/
theorem C4_replay_equals_empty_run (today : String) (prior : List HistEntry)
    (feeds : List String) (loadedSeen : List String) (fetch summarize : String → String)
    (hfeeds : feeds ≠ []) (_hne : mergeAndSort prior ≠ []) :
    runReplay today ((mergeAndSort prior).map HistEntry.dict) =
      some (Eff.mkdirOut :: renderFromHistory today (mergeAndSort prior)) ∧
    docEffects (mainCollect feeds loadedSeen ((mergeAndSort prior).map HistEntry.dict)
        fetch summarize [] today).1 =
      docEffects (Eff.mkdirOut :: renderFromHistory today (mergeAndSort prior)) := by
  constructor
  · rw [runReplay, asRecords_map_dict]
    rfl
  · rw [mainCollect, if_neg hfeeds]
    simp only [List.foldl_nil, mergeAndSort_idem]
    simp [docEffects]

/-- Witness for C4 at a concrete one-record persisted history. -/
theorem C4_replay_equals_empty_run_witness :
    runReplay "2026-10-12"
        ((mergeAndSort [HistEntry.dict
          { id := some "a1", title := some "T", link := some "http://x", source := some "x",
            pub_date := some "2024-01-02", summary := some "- s.",
            added_on := some "2024-01-02" }]).map HistEntry.dict) =
      some (Eff.mkdirOut :: renderFromHistory "2026-10-12"
        (mergeAndSort [HistEntry.dict
          { id := some "a1", title := some "T", link := some "http://x", source := some "x",
            pub_date := some "2024-01-02", summary := some "- s.",
            added_on := some "2024-01-02" }])) :=
  (C4_replay_equals_empty_run "2026-10-12" _ ["http://feed"] [] (fun _ => "") (fun _ => "")
    (by decide) (by decide)).1

/-- C5 (amended): outside replay mode, with zero feed sources configured,
the run exits with status 1 before any collection attempt; its only side
effect is the unconditional `os.makedirs(out_dir, exist_ok=True)` that
precedes the check — no file is written and nothing else is touched. -/
theorem C5_no_feeds_abort (feeds : List String) (loadedSeen : List String)
    (loadedHistory : List HistEntry) (fetch summarize : String → String)
    (collected : List Item) (today : String) (h : feeds = []) :
    mainCollect feeds loadedSeen loadedHistory fetch summarize collected today =
      ([Eff.mkdirOut], 1) := by
  subst h
  rfl

/-- Witness for C5 (amended) at concrete inputs. -/
theorem C5_no_feeds_abort_witness :
    mainCollect [] [] [] (fun _ => "") (fun _ => "") [] "2026-10-12" =
      ([Eff.mkdirOut], 1) :=
  C5_no_feeds_abort [] [] [] (fun _ => "") (fun _ => "") [] "2026-10-12" rfl

/-- Counterexample to C5 as stated: with zero feeds outside replay mode
the exit status is indeed the non-zero 1, but the run is not free of
side effects — starting from a filesystem where the output directory
does not exist, the directory exists after the run's effects are
applied, because `os.makedirs` runs before the feed check. -/
theorem C5_counterexample :
    (mainCollect [] [] [] (fun _ => "") (fun _ => "") [] "2026-10-12").2 = 1 ∧
    FSState.outDirExists { outDirExists := false } = false ∧
    (applyEffs { outDirExists := false }
      (mainCollect [] [] [] (fun _ => "") (fun _ => "") [] "2026-10-12").1).outDirExists =
      true := by
  refine ⟨rfl, rfl, rfl⟩

/-- C6: a collected candidate whose body extraction and summarization
both yield empty text is still marked seen and appended to the in-memory
batch, as a record whose summary is the literal fallback placeholder
sentence — which is not the empty string. -/
theorem C6_degraded_record (fetch summarize : String → String) (today : String)
    (st : CollectState) (it : Item)
    (hf : fetch it.link = "") (hs : ∀ t, summarize t = "") :
    processItem fetch summarize today st it =
      { seen := addSeen st.seen it.uid
        history := st.history ++ [HistEntry.dict
          { id := some it.uid
            title := some it.title
            link := some it.link
            source := some it.source
            pub_date := some it.pub_date
            summary := some placeholderSummary
            added_on := some today }] } ∧
    it.uid ∈ (processItem fetch summarize today st it).seen ∧
    placeholderSummary ≠ "" := by
  have hmain : processItem fetch summarize today st it =
      { seen := addSeen st.seen it.uid
        history := st.history ++ [HistEntry.dict
          { id := some it.uid
            title := some it.title
            link := some it.link
            source := some it.source
            pub_date := some it.pub_date
            summary := some placeholderSummary
            added_on := some today }] } := by
    rw [processItem, hf]
    simp [hs]
  refine ⟨hmain, ?_, by decide⟩
  rw [hmain]
  show it.uid ∈ addSeen st.seen it.uid
  by_cases h : it.uid ∈ st.seen
  · simp [addSeen, h]
  · simp [addSeen, h]

/-- Witness for C6 at a concrete candidate with empty extraction and
summarization. -/
theorem C6_degraded_record_witness :
    "u1" ∈ (processItem (fun _ => "") (fun _ => "") "2026-10-12"
      { seen := [], history := [] }
      { uid := "u1", title := "T", link := "http://x", source := "x",
        hint := "", pub_date := "" }).seen ∧
    placeholderSummary ≠ "" :=
  (C6_degraded_record (fun _ => "") (fun _ => "") "2026-10-12"
    { seen := [], history := [] }
    { uid := "u1", title := "T", link := "http://x", source := "x",
      hint := "", pub_date := "" } rfl (fun _ => rfl)).2

/-- C7: rendering an empty record list yields exactly the day header
followed by the explicit empty-state marker, and never the empty string
(the renderer is a total function, so it cannot raise). -/
theorem C7_render_empty (d : String) :
    renderMarkdown d [] = "# Résumés – " ++ d ++ "\n\n_Aucun article._\n" ∧
    renderMarkdown d [] ≠ "" := by
  have h2 : ("\n\n" : String) ++ "_Aucun article._\n" = "\n\n_Aucun article._\n" := by decide
  have h1 : renderMarkdown d [] = ("# Résumés – " ++ d ++ "\n\n") ++ "_Aucun article._\n" := by
    rw [renderMarkdown, if_pos rfl]
  constructor
  · rw [h1, String.append_assoc, h2]
  · rw [h1]
    intro hc
    have hlen := congrArg String.length hc
    rw [String.length_append] at hlen
    have h3 : ("_Aucun article._\n" : String).length = 17 := by decide
    have h4 : ("" : String).length = 0 := rfl
    rw [h3, h4] at hlen
    omega

/-- C8: merging a batch whose entries are all already present in the
history leaves the records whose ids are not mentioned in the batch
untouched — filtering the merged output to ids outside the batch gives
exactly the same record sequence (same contents, same order) as merging
the history alone. -/
theorem C8_merge_idempotent (hist batch : List HistEntry)
    (_hsub : ∀ e ∈ batch, e ∈ hist) :
    (mergeAndSort (hist ++ batch)).filter (fun r => !(idIn r (kvKeys batch))) =
      (mergeAndSort hist).filter (fun r => !(idIn r (kvKeys batch))) := by
  rw [mergeAndSort, mergeAndSort, isortBy_filter recLE recLE_total recLE_trans,
    isortBy_filter recLE recLE_total recLE_trans]
  congr 1
  rw [mergeDedup, mergeDedup, dedupAssoc, dedupAssoc, List.foldl_append]
  exact values_filter_dedupFold (kvKeys batch) batch _
    (dedupFold_good hist [] (fun p hp => absurd hp (List.not_mem_nil p)))
    (fun e he k r hekv => kvKeys_mem he hekv)

/-- Witness for C8: re-merging a record already in the history does not
disturb the other record. -/
theorem C8_merge_idempotent_witness :
    (mergeAndSort ([HistEntry.dict
        { id := some "a1", title := some "T1", link := none, source := none,
          pub_date := some "2024-01-02", summary := none, added_on := some "2024-01-02" },
      HistEntry.dict
        { id := some "b2", title := some "T2", link := none, source := none,
          pub_date := some "2024-01-01", summary := none, added_on := some "2024-01-01" }] ++
      [HistEntry.dict
        { id := some "a1", title := some "T1", link := none, source := none,
          pub_date := some "2024-01-02", summary := none, added_on := some "2024-01-02" }])).filter
      (fun r => !(idIn r (kvKeys [HistEntry.dict
        { id := some "a1", title := some "T1", link := none, source := none,
          pub_date := some "2024-01-02", summary := none, added_on := some "2024-01-02" }]))) =
    (mergeAndSort [HistEntry.dict
        { id := some "a1", title := some "T1", link := none, source := none,
          pub_date := some "2024-01-02", summary := none, added_on := some "2024-01-02" },
      HistEntry.dict
        { id := some "b2", title := some "T2", link := none, source := none,
          pub_date := some "2024-01-01", summary := none, added_on := some "2024-01-01" }]).filter
      (fun r => !(idIn r (kvKeys [HistEntry.dict
        { id := some "a1", title := some "T1", link := none, source := none,
          pub_date := some "2024-01-02", summary := none, added_on := some "2024-01-02" }]))) :=
  C8_merge_idempotent _ _ (by decide)

/-- C9: a loaded history entry that is not a mapping, or whose id is
missing or empty, is silently dropped by the merge-deduplication:
removing it from the input leaves the merged output unchanged, no record
with a missing or empty id survives into the merged (and persisted)
history, and no rendered day bucket of that history contains such a
record. -/
theorem C9_invalid_entries_dropped (l1 l2 : List HistEntry) (e : HistEntry)
    (he : entryKV e = none) (today : String) (r : Record)
    (hr : r.id = none ∨ r.id = some "") :
    mergeAndSort (l1 ++ e :: l2) = mergeAndSort (l1 ++ l2) ∧
    r ∉ mergeAndSort (l1 ++ l2) ∧
    (∀ k, r ∉ bucketOf (groupByDay today (mergeAndSort (l1 ++ l2))) k) := by
  have hnot : r ∉ mergeAndSort (l1 ++ l2) := by
    intro hc
    obtain ⟨s, hs, hne⟩ := mergeAndSort_mem_good (l1 ++ l2) r hc
    rcases hr with h | h
    · rw [h] at hs
      exact Option.noConfusion hs
    · rw [h] at hs
      exact hne (Option.some.injEq "" s ▸ hs).symm
  refine ⟨?_, hnot, ?_⟩
  · rw [mergeAndSort, mergeAndSort, mergeDedup, mergeDedup, dedupAssoc, dedupAssoc,
      List.foldl_append, List.foldl_append, List.foldl_cons]
    have hstep : dedupStep (List.foldl dedupStep [] l1) e = List.foldl dedupStep [] l1 := by
      simp [dedupStep, he]
    rw [hstep]
  · intro k hc
    rw [groupByDay, groupFold_bucket] at hc
    have hmem : r ∈ (mergeAndSort (l1 ++ l2)).filter
        (fun r => decide (dayKey today r = k)) := by
      simpa [bucketOf] using hc
    exact hnot (List.mem_filter.mp hmem).1

/-- Witness for C9: a non-dict entry and an empty-id record at concrete
inputs. -/
theorem C9_invalid_entries_dropped_witness :
    mergeAndSort ([HistEntry.dict
        { id := some "a1", title := none, link := none, source := none,
          pub_date := none, summary := none, added_on := none }] ++
      HistEntry.nonDict :: []) =
      mergeAndSort ([HistEntry.dict
        { id := some "a1", title := none, link := none, source := none,
          pub_date := none, summary := none, added_on := none }] ++ []) ∧
    { id := some "", title := none, link := none, source := none,
      pub_date := none, summary := none, added_on := none } ∉
      mergeAndSort ([HistEntry.dict
        { id := some "a1", title := none, link := none, source := none,
          pub_date := none, summary := none, added_on := none }] ++ []) ∧
    (∀ k, { id := some "", title := none, link := none, source := none,
            pub_date := none, summary := none, added_on := none } ∉
      bucketOf (groupByDay "2026-10-12" (mergeAndSort ([HistEntry.dict
        { id := some "a1", title := none, link := none, source := none,
          pub_date := none, summary := none, added_on := none }] ++ []))) k) :=
  C9_invalid_entries_dropped _ [] HistEntry.nonDict rfl "2026-10-12" _ (Or.inr rfl)

/-- C10: the renderer is total on records with missing fields, treating a
missing title as the literal placeholder and missing link, source,
pub_date and summary as empty strings — rendering any record list equals
rendering the list with those defaults filled in explicitly. -/
theorem C10_render_defaults (d : String) (rs : List Record) :
    renderMarkdown d rs = renderMarkdown d (rs.map fillDefaults) := by
  cases rs with
  | nil => rfl
  | cons r rs =>
    rw [renderMarkdown, renderMarkdown, if_neg (by simp), if_neg (by simp)]
    have h : ((r :: rs).map fillDefaults).map renderEntry = (r :: rs).map renderEntry := by
      rw [List.map_map]
      apply List.map_congr_left
      intro a _
      show renderEntry (fillDefaults a) = renderEntry a
      simp [renderEntry, fillDefaults]
    rw [h]
